import Mathlib

/-!
Shallow embedding of `analysis/compare.py`: the dump parser, the
canonicalization of register lists and avoid sets, the diff engine and the
report renderer.  Python strings are modelled as `List Char` (a parsed line)
or `String` (tokens, labels and map keys); Python dicts are association
lists with insert-or-update-in-place semantics mirroring dict assignment;
regular expressions are hand-translated to deterministic scanners, which is
faithful here because each of the four patterns in the source backtracks
trivially.  ASCII-only character classes stand in for Python's `\s`, `\d`
and `\w` (the dumps under comparison are ASCII).
-/

namespace CmpDump

/-- Characters matched by the Python regex class `\s` and by `str.split()`
with no arguments, restricted to ASCII: space, tab, newline, carriage
return, vertical tab, form feed. -/
def isSpc (c : Char) : Bool :=
  c == ' ' || c == '\t' || c == '\n' || c == '\r' || c == '\x0b' || c == '\x0c'

/-- Characters matched by the regex class `\d` (ASCII digits). -/
def isDig (c : Char) : Bool := c.isDigit

/-- Characters matched by the regex class `\w` (ASCII), used for the
word-boundary `\b` in `AVOID_RE`. -/
def isWord (c : Char) : Bool := c.isAlphanum || c == '_'

/-- Separator class of `re.split(r"[,\s]+", ...)` in `_split_regs`. -/
def isRegSep (c : Char) : Bool := c == ',' || isSpc c

/-- Boolean test that `pre` is a prefix of `cs` (Python `str.startswith`). -/
def isPre : List Char → List Char → Bool
  | [], _ => true
  | _ :: _, [] => false
  | a :: as, b :: bs => a == b && isPre as bs

/-- Python `str.lstrip()` on ASCII whitespace. -/
def trimL (cs : List Char) : List Char := cs.dropWhile isSpc

/-- Python `str.strip()` on ASCII whitespace. -/
def trim (cs : List Char) : List Char := ((trimL cs).reverse.dropWhile isSpc).reverse

/-- Decimal value of a digit string, as Python `int` on a `\d+` match. -/
def natOfDigits (cs : List Char) : Nat :=
  cs.foldl (fun a c => 10 * a + (c.toNat - 48)) 0

/-- Accumulator-passing worker for `fields`: `acc` holds the (reversed)
characters of the token currently being scanned. -/
def fieldsAux (p : Char → Bool) : List Char → List Char → List (List Char)
  | [], acc => if acc = [] then [] else [acc.reverse]
  | c :: cs, acc =>
    if p c then
      if acc = [] then fieldsAux p cs [] else acc.reverse :: fieldsAux p cs []
    else fieldsAux p cs (c :: acc)

/-- The maximal runs of non-separator characters of `cs`: the result of
Python `re.split` on one-or-more separators followed by discarding empty
pieces, as in `_split_regs`, or of `str.split()` when `p` is `isSpc`. -/
def fields (p : Char → Bool) (cs : List Char) : List (List Char) :=
  fieldsAux p cs []

/-- `fields`, with each token packaged as a `String`. -/
def fieldsS (p : Char → Bool) (cs : List Char) : List String :=
  (fields p cs).map (fun t => String.mk t)

/-- Lexicographic order on character lists by code point, the order Python
uses to compare `str` values in `sorted`. -/
def listLeB : List Char → List Char → Bool
  | [], _ => true
  | _ :: _, [] => false
  | a :: as, b :: bs => if a = b then listLeB as bs else decide (a < b)

/-- Python `str` comparison `a <= b`, as a proposition. -/
def strLe (a b : String) : Prop := listLeB a.data b.data = true

instance : DecidableRel strLe := fun a b =>
  inferInstanceAs (Decidable (listLeB a.data b.data = true))

/-- Python `sorted` on a list of strings. -/
def sortStr (l : List String) : List String := List.insertionSort strLe l

/-- Python `sorted` on a list of block ids. -/
def sortNat (l : List Nat) : List Nat := List.insertionSort (· ≤ ·) l

/-- `_split_regs`: split a register-list body on commas/whitespace and sort
the tokens.  Duplicates are preserved (the source sorts the token list
as-is); the leading `strip()` of the source is absorbed by `fields`, which
already discards empty pieces at either end. -/
def splitRegs (cs : List Char) : List String := sortStr (fieldsS isRegSep cs)

/-- Canonical avoid set: `tuple(sorted(set(toks)))` over the
whitespace-separated tokens of the `avoid=` clause body. -/
def canonAvoid (cs : List Char) : List String := sortStr ((fieldsS isSpc cs).dedup)

/-- `VAR_RE.match(tok)` together with the decoding the source performs on a
match: `^(?P<v>v\d+)\((?P<n>\d+)\)(?:\[(?P<regs>[^\]]+)\])?$`.  The pattern
is deterministic: after `)` either the token ends (no bracket group, empty
register list via `_split_regs("")`) or a bracket group with a non-empty
`[^\]]+` body must close the token.  Returns `(variable id, weight,
canonical registers)` exactly when the token matches. -/
def varMatch (tok : List Char) : Option (String × Nat × List String) :=
  match tok with
  | 'v' :: rest =>
    let ds := rest.takeWhile isDig
    let r1 := rest.dropWhile isDig
    if ds = [] then none else
    match r1 with
    | '(' :: r2 =>
      let ns := r2.takeWhile isDig
      let r3 := r2.dropWhile isDig
      if ns = [] then none else
      match r3 with
      | ')' :: r4 =>
        match r4 with
        | [] => some (String.mk ('v' :: ds), natOfDigits ns, splitRegs [])
        | '[' :: r5 =>
          let content := r5.takeWhile (fun c => c != ']')
          let r6 := r5.dropWhile (fun c => c != ']')
          if content = [] then none else
          match r6 with
          | [']'] => some (String.mk ('v' :: ds), natOfDigits ns, splitRegs content)
          | _ => none
        | _ => none
      | _ => none
    | _ => none
  | _ => none

/-- Literal scanned for by `AVOID_RE`. -/
def avoidLit : List Char := ['a', 'v', 'o', 'i', 'd', '=']

/-- Word-boundary test of `\b` in `AVOID_RE`, given the character preceding
the match position (`none` at the start of the body; the following
character is always the word character `a`). -/
def boundary : Option Char → Bool
  | none => true
  | some p => !isWord p

/-- `AVOID_RE.search(body)`: find the first position with a word boundary
followed by `avoid=` and at least one further character (`.+?` needs one),
and split the body there into the part before the match and the clause body
after `avoid=`. -/
def avoidSplit (prev : Option Char) : List Char → Option (List Char × List Char)
  | [] => none
  | c :: cs =>
    if boundary prev && isPre avoidLit (c :: cs) && !((c :: cs).drop 6).isEmpty then
      some ([], (c :: cs).drop 6)
    else
      match avoidSplit (some c) cs with
      | none => none
      | some (before, after) => some (c :: before, after)

/-- Association-list lookup, as Python `d[k]` / `k in d` on a dict. -/
def alookup {α β : Type} [DecidableEq α] (k : α) : List (α × β) → Option β
  | [] => none
  | (k', v) :: xs => if k' = k then some v else alookup k xs

/-- Association-list insert-or-update, as Python `d[k] = v`: an existing
key is updated in place, a new key is appended at the end. -/
def ainsert {α β : Type} [DecidableEq α] (k : α) (v : β) : List (α × β) → List (α × β)
  | [] => [(k, v)]
  | (k', v') :: xs => if k' = k then (k, v) :: xs else (k', v') :: ainsert k v xs

/-- The key list of an association list (Python `d.keys()`). -/
def akeys {α β : Type} (xs : List (α × β)) : List α := xs.map Prod.fst

/-- `BlockState`: per-variable `(weight, sorted registers)` plus the
canonical avoid set. -/
structure BlockState where
  vars : List (String × (Nat × List String))
  avoid : List String
deriving DecidableEq

/-- The variable-token loop of `parse_file` (lines 129-137): run `VAR_RE`
over each whitespace-separated token of the remaining body, silently
discarding non-matches, with last-write-wins on a repeated variable id. -/
def decodeVars (toks : List (List Char)) : List (String × (Nat × List String)) :=
  toks.foldl
    (fun m tok =>
      match varMatch tok with
      | none => m
      | some (v, n, regs) => ainsert v (n, regs) m)
    []

/-- Lines 119-139 of `parse_file` applied to a (stripped) block body:
extract a trailing `avoid=` clause if present, canonicalize it, then decode
the remaining tokens into the variable map. -/
def decodeBody (body : List Char) : BlockState :=
  match avoidSplit none body with
  | none => ⟨decodeVars (fields isSpc body), []⟩
  | some (before, after) => ⟨decodeVars (fields isSpc (trim before)), canonAvoid after⟩

/-- `Section`: optional annotation, first-seen header line and the block
map of one function. -/
structure Section where
  desc : Option String
  header_line : String
  blocks : List (Nat × BlockState)
deriving DecidableEq

/-- The parsed model of `parse_file`: function name to `Section`. -/
abbrev Dump := List (String × Section)

/-- Literal fragments of `SECTION_RE` and the `Begin processing block`
terminator test. -/
def finalLit : List Char := ['f', 'i', 'n', 'a', 'l']

/-- The fixed middle text of a section header line. -/
def liveLit : List Char := "live values at end of each block:".data

/-- Terminator tested by `line.startswith("Begin processing block")`. -/
def beginLit : List Char := "Begin processing block".data

/-- Tail of `SECTION_RE` after the optional annotation group:
`:\s*live values at end of each block:\s*(?P<func>.+?)\s*$`, combined with
the `.strip()` the source applies to the function group.  `.+?` must
consume at least one character, so a line ending directly after the colon
does not match; otherwise the function name is the remainder stripped of
surrounding whitespace. -/
def secTail (desc : Option String) (r : List Char) : Option (Option String × String) :=
  match r with
  | ':' :: r1 =>
    let r2 := trimL r1
    if isPre liveLit r2 then
      let rest := r2.drop liveLit.length
      if rest.isEmpty then none else some (desc, String.mk (trim rest))
    else none
  | _ => none

/-- `SECTION_RE.match(line)`:
`^final(?:\s*\((?P<desc>[^)]*)\))?:\s*live values at end of each block:\s*(?P<func>.+?)\s*$`.
The optional group is attempted exactly when the first non-whitespace
character after `final` is `(`; if it is and the group fails, the `:` that
the groupless alternative requires cannot be there either, so the line does
not match. -/
def secMatch (cs : List Char) : Option (Option String × String) :=
  if isPre finalLit cs then
    let r := cs.drop 5
    match trimL r with
    | '(' :: r2 =>
      let content := r2.takeWhile (fun c => c != ')')
      match r2.dropWhile (fun c => c != ')') with
      | ')' :: r3 => secTail (some (String.mk content)) r3
      | _ => none
    | _ => secTail none r
  else none

/-- `BLOCK_RE.match(line)`: `^\s*b(?P<bid>\d+):\s*(?P<body>.*)$`, combined
with the `.strip()` the source applies to the body group. -/
def blockMatch (cs : List Char) : Option (Nat × List Char) :=
  match trimL cs with
  | 'b' :: r1 =>
    let ds := r1.takeWhile isDig
    match r1.dropWhile isDig with
    | ':' :: r2 => if ds = [] then none else some (natOfDigits ds, trim r2)
    | _ => none
  | _ => none

/-- Truthiness of the Python annotation value: `None` and the empty string
are falsy. -/
def descTruthy : Option String → Bool
  | none => false
  | some s => s != ""

/-- `parse_file.ensure`: create a fresh `Section` on first sight of a
function name; otherwise keep the first header line, and fill in the
description only when none was recorded and the new one is truthy. -/
def ensure (secs : Dump) (func : String) (desc : Option String) (header : String) : Dump :=
  match alookup func secs with
  | none => secs ++ [(func, ⟨desc, header, []⟩)]
  | some sec =>
    match sec.desc with
    | some _ => secs
    | none => if descTruthy desc then ainsert func { sec with desc := desc } secs else secs

/-- Store a decoded `BlockState` into the current function's block map
(`sections[cur_func].blocks[bid] = BlockState(...)`). -/
def insBlock (f : String) (bid : Nat) (bs : BlockState) : Dump → Dump
  | [] => []
  | (g, sec) :: rest =>
    if g = f then (g, { sec with blocks := ainsert bid bs sec.blocks }) :: rest
    else (g, sec) :: insBlock f bid bs rest

/-- Parser state: the sections built so far and the current function.  The
source also keeps `cur_desc` and `cur_header`, but both are only read in
the same loop iteration that assigns them, so they carry no cross-line
state. -/
structure ParseState where
  sections : Dump
  curFunc : Option String

/-- One iteration of the `parse_file` line loop. -/
def step (st : ParseState) (line : List Char) : ParseState :=
  match secMatch line with
  | some (desc, func) =>
    { sections := ensure st.sections func desc (String.mk line), curFunc := some func }
  | none =>
    match st.curFunc with
    | none => st
    | some f =>
      if isPre beginLit line then { st with curFunc := none }
      else
        match blockMatch line with
        | none => st
        | some (bid, body) =>
          { st with sections := insBlock f bid (decodeBody body) st.sections }

/-- `parse_file` over the newline-stripped lines of the input file. -/
def parseFile (lines : List String) : Dump :=
  (lines.foldl (fun st l => step st l.data) ⟨[], none⟩).sections

/-- The final path component (`Path(path).name`). -/
def basename (cs : List Char) : List Char :=
  (cs.reverse.takeWhile (fun c => c != '/')).reverse

/-- `Path(path).stem`: drop the suffix starting at the last dot, provided
that dot is neither the first nor the last character of the name. -/
def stemOf (name : List Char) : List Char :=
  let k := (name.reverse.takeWhile (fun c => c != '.')).length
  if k < name.length ∧ 0 < k ∧ 0 < name.length - 1 - k then
    name.take (name.length - 1 - k)
  else name

/-- Python `str.removeprefix`. -/
def removePre (pre cs : List Char) : List Char :=
  if isPre pre cs then cs.drop pre.length else cs

/-- `file_label`: the path's stem with a leading `debug_` removed. -/
def fileLabel (path : String) : String :=
  String.mk (removePre "debug_".data (stemOf (basename path.data)))

/-- Python `str.strip()` on a `String`. -/
def trimS (s : String) : String := String.mk (trim s.data)

/-- `section_label`: the stripped annotation when truthy, else the file
label. -/
def sectionLabel (path : String) (desc : Option String) : String :=
  match desc with
  | none => fileLabel path
  | some d => if trimS d = "" then fileLabel path else trimS d

/-- `comparison_header`. -/
def comparisonHeader (leftPath : String) (leftDesc : Option String)
    (rightPath : String) (rightDesc : Option String) : String :=
  sectionLabel leftPath leftDesc ++ " - " ++ sectionLabel rightPath rightDesc

/-- Python `sep.join(xs)`. -/
def joinSep (sep : String) : List String → String
  | [] => ""
  | [x] => x
  | x :: xs => x ++ sep ++ joinSep sep xs

/-- Rendering of a Python list of strings inside an f-string, e.g.
`['R0', 'R1']` (faithful for register names free of quotes and
backslashes, which is all the dumps contain). -/
def pyListRepr (xs : List String) : String :=
  "[" ++ joinSep ", " (xs.map (fun s => "'" ++ s ++ "'")) ++ "]"

/-- The `vars only in <label>` line (source lines 222-227): the first 50
ids joined by commas, then a bare ` ...` marker when more were elided. -/
def varsOnlyLine (label : String) (vOnlyIds : List String) : String :=
  "    vars only in " ++ label ++ ": " ++ joinSep ", " (vOnlyIds.take 50) ++
    (if 50 < vOnlyIds.length then " ..." else "")

/-- One explicit changed-variable line (source lines 229-232). -/
def changedEntryLine (labelA labelB : String)
    (e : String × (Nat × List String) × (Nat × List String)) : String :=
  "    " ++ e.1 ++ ": " ++ labelA ++ "=(" ++ toString e.2.1.1 ++ "," ++
    pyListRepr e.2.1.2 ++ ") " ++ labelB ++ "=(" ++ toString e.2.2.1 ++ "," ++
    pyListRepr e.2.2.2 ++ ")"

/-- The changed-variable listing of one block (source lines 229-236): at
most `maxVar` explicit entries, then a `... N more changed vars` line
counting the elided entries. -/
def changedVarLines (labelA labelB : String) (maxVar : Nat)
    (vch : List (String × (Nat × List String) × (Nat × List String))) : List String :=
  (vch.take maxVar).map (changedEntryLine labelA labelB) ++
    (if maxVar < vch.length then
      ["    ... " ++ toString (vch.length - maxVar) ++ " more changed vars"]
    else [])

/-- `sorted(vA - vB)`: variable ids in `a` but not in `b`, sorted. -/
def vOnly (a b : List (String × (Nat × List String))) : List String :=
  sortStr ((akeys a).filter (fun v => decide (¬ v ∈ akeys b)))

/-- `sorted(vA & vB)`: the common variable ids, sorted. -/
def vCommon (a b : List (String × (Nat × List String))) : List String :=
  sortStr ((akeys a).filter (fun v => decide (v ∈ akeys b)))

/-- The changed-variable list of one block (source lines 209-213): common
ids, in sorted order, whose canonical `(weight, registers)` values differ. -/
def changedOf (a b : List (String × (Nat × List String))) :
    List (String × (Nat × List String) × (Nat × List String)) :=
  (vCommon a b).filterMap (fun v =>
    let av := (alookup v a).getD (0, [])
    let bv := (alookup v b).getD (0, [])
    if av = bv then none else some (v, av, bv))

/-- Whether one common block contributes any difference (the condition of
source line 217). -/
def blockHasDiff (a b : BlockState) : Bool :=
  decide (vOnly a.vars b.vars ≠ []) || decide (vOnly b.vars a.vars ≠ []) ||
    decide (changedOf a.vars b.vars ≠ []) || decide (a.avoid ≠ b.avoid)

/-- The lines a common block contributes to its function's diff (source
lines 202-241); empty exactly when the block shows no difference. -/
def blockLines (labelA labelB : String) (maxVar : Nat) (bid : Nat)
    (a b : BlockState) : List String :=
  let vOA := vOnly a.vars b.vars
  let vOB := vOnly b.vars a.vars
  let vch := changedOf a.vars b.vars
  if vOA = [] ∧ vOB = [] ∧ vch = [] ∧ a.avoid = b.avoid then []
  else
    ["", "  == b" ++ toString bid ++ " =="] ++
      (if vOA = [] then [] else [varsOnlyLine labelA vOA]) ++
      (if vOB = [] then [] else [varsOnlyLine labelB vOB]) ++
      changedVarLines labelA labelB maxVar vch ++
      (if a.avoid = b.avoid then []
       else ["    avoid: " ++ labelA ++ "=" ++ pyListRepr a.avoid ++ " " ++
         labelB ++ "=" ++ pyListRepr b.avoid])

/-- `sorted(bidsA - bidsB)` on block ids. -/
def bOnly (blocksA blocksB : List (Nat × BlockState)) : List Nat :=
  sortNat ((akeys blocksA).filter (fun x => decide (¬ x ∈ akeys blocksB)))

/-- `sorted(bidsA & bidsB)` on block ids. -/
def bCommon (blocksA blocksB : List (Nat × BlockState)) : List Nat :=
  sortNat ((akeys blocksA).filter (fun x => decide (x ∈ akeys blocksB)))

/-- Whether a common function contributes any difference (the accumulated
`func_has_diff` flag of source lines 189-241). -/
def funcHasDiff (blocksA blocksB : List (Nat × BlockState)) : Bool :=
  decide (bOnly blocksA blocksB ≠ []) || decide (bOnly blocksB blocksA ≠ []) ||
    (bCommon blocksA blocksB).any (fun bid =>
      blockHasDiff ((alookup bid blocksA).getD ⟨[], []⟩)
        ((alookup bid blocksB).getD ⟨[], []⟩))

/-- The accumulated `func_lines` of one common function (source lines
188-241). -/
def funcDiffLines (labelA labelB : String) (maxVar : Nat)
    (blocksA blocksB : List (Nat × BlockState)) : List String :=
  (if bOnly blocksA blocksB = [] then []
   else ["  blocks only in " ++ labelA ++ ": " ++
     joinSep ", " ((bOnly blocksA blocksB).map (fun x => "b" ++ toString x))]) ++
  (if bOnly blocksB blocksA = [] then []
   else ["  blocks only in " ++ labelB ++ ": " ++
     joinSep ", " ((bOnly blocksB blocksA).map (fun x => "b" ++ toString x))]) ++
  ((bCommon blocksA blocksB).map (fun bid =>
    blockLines labelA labelB maxVar bid ((alookup bid blocksA).getD ⟨[], []⟩)
      ((alookup bid blocksB).getD ⟨[], []⟩))).flatten

/-- A default `Section`, standing in for the unreachable lookup miss on a
common function name. -/
def noSection : Section := ⟨none, "", []⟩

/-- `compare_sections`: the printed report (one list entry per printed
line, a bare `print()` contributing an empty line) together with the
returned exit status. -/
def compareSections (pathA : String) (A : Dump) (pathB : String) (B : Dump)
    (maxVar : Nat) : List String × Nat :=
  let labelA := fileLabel pathA
  let labelB := fileLabel pathB
  let onlyA := sortStr ((akeys A).filter (fun n => decide (¬ n ∈ akeys B)))
  let onlyB := sortStr ((akeys B).filter (fun n => decide (¬ n ∈ akeys A)))
  let common := sortStr ((akeys A).filter (fun n => decide (n ∈ akeys B)))
  let funcOut := common.foldr
    (fun func acc =>
      let secA := (alookup func A).getD noSection
      let secB := (alookup func B).getD noSection
      if funcHasDiff secA.blocks secB.blocks then
        ("=== " ++ func ++ " (" ++
            comparisonHeader pathA secA.desc pathB secB.desc ++ ") ===") ::
          (funcDiffLines labelA labelB maxVar secA.blocks secB.blocks ++ [""]) ++ acc
      else acc)
    []
  let diffs := decide (onlyA ≠ []) || decide (onlyB ≠ []) ||
    common.any (fun func =>
      funcHasDiff ((alookup func A).getD noSection).blocks
        ((alookup func B).getD noSection).blocks)
  ((if onlyA = [] then []
     else ("Sections only in " ++ labelA ++ ":") :: onlyA.map (fun n => "  - " ++ n) ++ [""]) ++
   (if onlyB = [] then []
     else ("Sections only in " ++ labelB ++ ":") :: onlyB.map (fun n => "  - " ++ n) ++ [""]) ++
   funcOut ++
   (if diffs then [] else ["No differences found."]),
   if diffs then 1 else 0)

/-- The effect of one line on a block map while a section is current: a
block-summary line inserts its decoded BlockState, anything else is
ignored. -/
def blockFold (m : List (Nat × BlockState)) (line : List Char) : List (Nat × BlockState) :=
  match blockMatch line with
  | none => m
  | some (bid, body) => ainsert bid (decodeBody body) m

/-- The block map contributed by a run of block-summary lines processed
under one current function, starting from an empty map: the reference value
for the section-accumulation property. -/
def blocksOf (lines : List (List Char)) : List (Nat × BlockState) :=
  lines.foldl blockFold []

/-- The block ids announced by a run of lines (what `blocksOf` keys are
drawn from). -/
def bidsOf (lines : List (List Char)) : List Nat :=
  lines.filterMap (fun l => (blockMatch l).map Prod.fst)

/-- A register list or avoid clause assembled from tokens and separator
runs placed between consecutive tokens: `interleave [t1, t2, t3] [s1, s2]`
is `t1 ++ s1 ++ t2 ++ s2 ++ t3`. -/
def interleave : List (List Char) → List (List Char) → List Char
  | [], _ => []
  | [t], _ => t
  | t :: ts, [] => t ++ interleave ts []
  | t :: ts, s :: ss => t ++ s ++ interleave ts ss

/-- The parser's line loop run from an arbitrary state. -/
def runLines (st : ParseState) (lines : List (List Char)) : ParseState :=
  lines.foldl step st

/-- Semantic absence of any variable-level or avoid difference between two
common blocks: mutual key inclusion, equal values on common variable ids,
equal avoid sets.  This is the spec-side reading of "no per-block diff",
stated independently of the renderer. -/
def noBlockDiff (a b : BlockState) : Prop :=
  (∀ v ∈ akeys a.vars, v ∈ akeys b.vars) ∧ (∀ v ∈ akeys b.vars, v ∈ akeys a.vars) ∧
    (∀ v av bv, alookup v a.vars = some av → alookup v b.vars = some bv → av = bv) ∧
    a.avoid = b.avoid

/-- Semantic absence of any block-level or deeper difference between two
common functions. -/
def noFuncDiff (blocksA blocksB : List (Nat × BlockState)) : Prop :=
  (∀ x ∈ akeys blocksA, x ∈ akeys blocksB) ∧ (∀ x ∈ akeys blocksB, x ∈ akeys blocksA) ∧
    ∀ bid a b, alookup bid blocksA = some a → alookup bid blocksB = some b → noBlockDiff a b

/-- The `diffs_found` flag of `compare_sections` after the whole run:
some section name only in one side, or some common function with a
difference.  `compareSections` returns the pair whose exit status is
`if diffsFlag A B then 1 else 0` (definitionally). -/
def diffsFlag (A B : Dump) : Bool :=
  decide (sortStr ((akeys A).filter (fun n => decide (¬ n ∈ akeys B))) ≠ []) ||
    decide (sortStr ((akeys B).filter (fun n => decide (¬ n ∈ akeys A))) ≠ []) ||
    (sortStr ((akeys A).filter (fun n => decide (n ∈ akeys B)))).any (fun func =>
      funcHasDiff ((alookup func A).getD noSection).blocks
        ((alookup func B).getD noSection).blocks)

/-- Semantic emptiness of the whole report: no function only in either
side and no per-function diff at any level. -/
def reportEmpty (A B : Dump) : Prop :=
  (∀ f ∈ akeys A, f ∈ akeys B) ∧ (∀ f ∈ akeys B, f ∈ akeys A) ∧
    ∀ f sa sb, alookup f A = some sa → alookup f B = some sb →
      noFuncDiff sa.blocks sb.blocks

theorem listLeB_total : ∀ as bs : List Char, listLeB as bs = true ∨ listLeB bs as = true
  | [], _ => Or.inl rfl
  | _ :: _, [] => Or.inr rfl
  | a :: as, b :: bs => by
    by_cases h : a = b
    · subst h
      rcases listLeB_total as bs with h1 | h1
      · exact Or.inl (by simp [listLeB, h1])
      · exact Or.inr (by simp [listLeB, h1])
    · rcases lt_or_gt_of_ne h with hlt | hgt
      · exact Or.inl (by simp [listLeB, h, hlt])
      · exact Or.inr (by simp [listLeB, Ne.symm h, hgt])

theorem listLeB_trans : ∀ as bs cs : List Char,
    listLeB as bs = true → listLeB bs cs = true → listLeB as cs = true
  | [], _, _, _, _ => rfl
  | _ :: _, [], _, h, _ => by simp [listLeB] at h
  | _ :: _, _ :: _, [], _, h2 => by simp [listLeB] at h2
  | a :: as, b :: bs, c :: cs, h1, h2 => by
    have e1 : listLeB (a :: as) (b :: bs) = if a = b then listLeB as bs else decide (a < b) := rfl
    have e2 : listLeB (b :: bs) (c :: cs) = if b = c then listLeB bs cs else decide (b < c) := rfl
    have e3 : listLeB (a :: as) (c :: cs) = if a = c then listLeB as cs else decide (a < c) := rfl
    rw [e1] at h1; rw [e2] at h2; rw [e3]
    by_cases hab : a = b <;> by_cases hbc : b = c
    · subst hab; subst hbc
      rw [if_pos rfl] at h1 h2 ⊢
      exact listLeB_trans as bs cs h1 h2
    · subst hab
      rw [if_neg hbc] at h2
      rw [if_neg hbc]
      exact h2
    · subst hbc
      rw [if_neg hab] at h1
      rw [if_neg hab]
      exact h1
    · rw [if_neg hab] at h1; rw [if_neg hbc] at h2
      have hac : a < c := lt_trans (of_decide_eq_true h1) (of_decide_eq_true h2)
      rw [if_neg (ne_of_lt hac)]
      exact decide_eq_true hac

theorem listLeB_antisymm : ∀ as bs : List Char,
    listLeB as bs = true → listLeB bs as = true → as = bs
  | [], [], _, _ => rfl
  | [], _ :: _, _, h2 => by simp [listLeB] at h2
  | _ :: _, [], h1, _ => by simp [listLeB] at h1
  | a :: as, b :: bs, h1, h2 => by
    by_cases hab : a = b
    · subst hab
      simp only [listLeB, if_pos rfl] at h1 h2
      rw [listLeB_antisymm as bs h1 h2]
    · simp only [listLeB, if_neg hab, if_neg (Ne.symm hab), decide_eq_true_eq] at h1 h2
      exact absurd h2 (lt_asymm h1)

instance : IsTotal String strLe := ⟨fun a b => listLeB_total a.data b.data⟩

instance : IsTrans String strLe := ⟨fun a b c => listLeB_trans a.data b.data c.data⟩

instance : IsAntisymm String strLe :=
  ⟨fun a b h1 h2 => String.toList_inj.mp (listLeB_antisymm a.data b.data h1 h2)⟩

theorem sortStr_perm (l : List String) : (sortStr l).Perm l := List.perm_insertionSort _ _

theorem sortStr_sorted (l : List String) : List.Sorted strLe (sortStr l) :=
  List.sorted_insertionSort _ _

theorem sortStr_eq_of_perm {l1 l2 : List String} (h : l1.Perm l2) : sortStr l1 = sortStr l2 :=
  List.eq_of_perm_of_sorted ((sortStr_perm l1).trans (h.trans (sortStr_perm l2).symm))
    (sortStr_sorted l1) (sortStr_sorted l2)

theorem mem_sortStr {x : String} {l : List String} : x ∈ sortStr l ↔ x ∈ l :=
  (sortStr_perm l).mem_iff

theorem sortStr_eq_nil_iff {l : List String} : sortStr l = [] ↔ l = [] := by
  constructor
  · intro h
    have hp := sortStr_perm l
    rw [h] at hp
    exact hp.symm.eq_nil
  · intro h; rw [h]; rfl

theorem sortNat_perm (l : List Nat) : (sortNat l).Perm l := List.perm_insertionSort _ _

theorem mem_sortNat {x : Nat} {l : List Nat} : x ∈ sortNat l ↔ x ∈ l :=
  (sortNat_perm l).mem_iff

theorem sortNat_eq_nil_iff {l : List Nat} : sortNat l = [] ↔ l = [] := by
  constructor
  · intro h
    have hp := sortNat_perm l
    rw [h] at hp
    exact hp.symm.eq_nil
  · intro h; rw [h]; rfl

theorem sortStr_nil : sortStr [] = [] := rfl

theorem takeWhile_all {p : Char → Bool} : ∀ l : List Char,
    (∀ c ∈ l, p c = true) → l.takeWhile p = l := by
  intro l
  induction l with
  | nil => intro _; rfl
  | cons c cs ih =>
    intro h
    rw [List.takeWhile_cons, h c (by simp)]
    simp [ih (fun x hx => h x (by simp [hx]))]

theorem dropWhile_all {p : Char → Bool} : ∀ l : List Char,
    (∀ c ∈ l, p c = true) → l.dropWhile p = [] := by
  intro l
  induction l with
  | nil => intro _; rfl
  | cons c cs ih =>
    intro h
    rw [List.dropWhile_cons, h c (by simp)]
    simp [ih (fun x hx => h x (by simp [hx]))]

theorem takeWhile_append_stop {p : Char → Bool} {y : Char} (hy : p y = false) :
    ∀ (l : List Char) (ys : List Char), (∀ c ∈ l, p c = true) →
      (l ++ y :: ys).takeWhile p = l := by
  intro l
  induction l with
  | nil => intro ys _; simp [List.takeWhile_cons, hy]
  | cons c cs ih =>
    intro ys h
    rw [List.cons_append, List.takeWhile_cons, h c (by simp)]
    simp [ih ys (fun x hx => h x (by simp [hx]))]

theorem dropWhile_append_stop {p : Char → Bool} {y : Char} (hy : p y = false) :
    ∀ (l : List Char) (ys : List Char), (∀ c ∈ l, p c = true) →
      (l ++ y :: ys).dropWhile p = y :: ys := by
  intro l
  induction l with
  | nil => intro ys _; simp [List.dropWhile_cons, hy]
  | cons c cs ih =>
    intro ys h
    rw [List.cons_append, List.dropWhile_cons, h c (by simp)]
    simp [ih ys (fun x hx => h x (by simp [hx]))]

theorem alookup_eq_none_iff {α β : Type} [DecidableEq α] (k : α) :
    ∀ xs : List (α × β), alookup k xs = none ↔ ¬ k ∈ akeys xs := by
  intro xs
  induction xs with
  | nil => simp [alookup, akeys]
  | cons x rest ih =>
    obtain ⟨k', v⟩ := x
    by_cases h : k' = k
    · subst h
      simp [alookup, akeys]
    · simp [alookup, h, akeys, ih, Ne.symm h]

theorem mem_akeys_of_alookup {α β : Type} [DecidableEq α] {k : α} {v : β}
    {xs : List (α × β)} (h : alookup k xs = some v) : k ∈ akeys xs := by
  by_contra hc
  rw [← alookup_eq_none_iff k xs] at hc
  rw [h] at hc
  exact Option.noConfusion hc

theorem alookup_isSome_of_mem {α β : Type} [DecidableEq α] {k : α}
    {xs : List (α × β)} (h : k ∈ akeys xs) : ∃ v, alookup k xs = some v := by
  cases he : alookup k xs with
  | none => exact absurd h ((alookup_eq_none_iff k xs).mp he)
  | some v => exact ⟨v, rfl⟩

theorem alookup_ainsert {α β : Type} [DecidableEq α] (k : α) (v : β) :
    ∀ xs : List (α × β), alookup k (ainsert k v xs) = some v := by
  intro xs
  induction xs with
  | nil => simp [ainsert, alookup]
  | cons x rest ih =>
    obtain ⟨k', v'⟩ := x
    by_cases h : k' = k
    · subst h
      simp [ainsert, alookup]
    · simp [ainsert, h, alookup, ih]

theorem alookup_ainsert_ne {α β : Type} [DecidableEq α] {j k : α} (v : β)
    (hjk : j ≠ k) : ∀ xs : List (α × β), alookup j (ainsert k v xs) = alookup j xs := by
  intro xs
  induction xs with
  | nil => simp [ainsert, alookup, Ne.symm hjk]
  | cons x rest ih =>
    obtain ⟨k', v'⟩ := x
    by_cases h : k' = k
    · subst h
      simp [ainsert, alookup, Ne.symm hjk, ih]
    · simp only [ainsert, if_neg h]
      by_cases h2 : k' = j
      · subst h2
        simp [alookup]
      · simp [alookup, h2, ih]

theorem ainsert_eq_append {α β : Type} [DecidableEq α] (k : α) (v : β) :
    ∀ xs : List (α × β), ¬ k ∈ akeys xs → ainsert k v xs = xs ++ [(k, v)] := by
  intro xs
  induction xs with
  | nil => intro _; rfl
  | cons x rest ih =>
    obtain ⟨k', v'⟩ := x
    intro h
    have hk : k' ≠ k := by
      intro he
      exact h (by simp [akeys, he])
    simp only [ainsert, if_neg hk, List.cons_append, List.cons.injEq, true_and]
    exact ih (fun hc => h (by simp [akeys] at hc ⊢; exact Or.inr hc))

theorem ainsert_append_left {α β : Type} [DecidableEq α] (k : α) (v : β)
    (xs ys : List (α × β)) (h : ¬ k ∈ akeys xs) :
    ainsert k v (xs ++ ys) = xs ++ ainsert k v ys := by
  induction xs with
  | nil => rfl
  | cons x rest ih =>
    obtain ⟨k', v'⟩ := x
    have hk : k' ≠ k := by
      intro he
      exact h (by simp [akeys, he])
    simp only [List.cons_append, ainsert, if_neg hk, List.cons.injEq, true_and]
    exact ih (fun hc => h (by simp [akeys] at hc ⊢; exact Or.inr hc))

theorem filter_not_mem_self {α : Type} [DecidableEq α] (l : List α) :
    l.filter (fun v => decide (¬ v ∈ l)) = [] := by
  rw [List.filter_eq_nil_iff]
  intro a ha
  simp [ha]

theorem changedOf_self (a : List (String × (Nat × List String))) : changedOf a a = [] := by
  rw [changedOf, List.filterMap_eq_nil_iff]
  intro v _
  simp

theorem vOnly_self (a : List (String × (Nat × List String))) : vOnly a a = [] := by
  rw [vOnly, filter_not_mem_self]
  rfl

theorem blockHasDiff_self (a : BlockState) : blockHasDiff a a = false := by
  simp [blockHasDiff, vOnly_self, changedOf_self]

theorem bOnly_self (blocks : List (Nat × BlockState)) : bOnly blocks blocks = [] := by
  rw [bOnly, filter_not_mem_self]
  rfl

theorem funcHasDiff_self (blocks : List (Nat × BlockState)) :
    funcHasDiff blocks blocks = false := by
  rw [funcHasDiff, bOnly_self]
  simp [List.any_eq_false]
  intro bid _
  simp [blockHasDiff_self]

theorem foldr_skip {α β : Type} (body : α → List β → List β) (l : List α)
    (h : ∀ x ∈ l, ∀ acc, body x acc = acc) : l.foldr body [] = [] := by
  induction l with
  | nil => rfl
  | cons x rest ih =>
    rw [List.foldr_cons, ih (fun y hy => h y (by simp [hy]))]
    exact h x (by simp) []

/-- C4: register-list canonicalization sorts its tokens but is
multiset-preserving — the canonical form is a permutation of the token
list, so every duplicate survives with its multiplicity — while avoid-set
canonicalization is set-collapsing — the canonical form is sorted,
duplicate-free, and has the same membership as the token list.  This holds
for every input character sequence. -/
theorem c4_canon_asymmetry (cs : List Char) :
    (splitRegs cs).Perm (fieldsS isRegSep cs) ∧
      (∀ x : String, (splitRegs cs).count x = (fieldsS isRegSep cs).count x) ∧
      List.Sorted strLe (splitRegs cs) ∧
      (canonAvoid cs).Nodup ∧
      List.Sorted strLe (canonAvoid cs) ∧
      (∀ x : String, x ∈ canonAvoid cs ↔ x ∈ fieldsS isSpc cs) := by
  refine ⟨sortStr_perm _, fun x => (sortStr_perm _).count_eq x, sortStr_sorted _, ?_,
    sortStr_sorted _, ?_⟩
  · exact ((sortStr_perm _).nodup_iff).mpr (List.nodup_dedup _)
  · intro x
    rw [canonAvoid, mem_sortStr, List.mem_dedup]

theorem sortStr_filter_not_mem_eq_nil_iff {ks ks' : List String} :
    sortStr (ks.filter (fun v => decide (¬ v ∈ ks'))) = [] ↔ ∀ v ∈ ks, v ∈ ks' := by
  rw [sortStr_eq_nil_iff, List.filter_eq_nil_iff]
  simp

theorem sortNat_filter_not_mem_eq_nil_iff {ks ks' : List Nat} :
    sortNat (ks.filter (fun v => decide (¬ v ∈ ks'))) = [] ↔ ∀ v ∈ ks, v ∈ ks' := by
  rw [sortNat_eq_nil_iff, List.filter_eq_nil_iff]
  simp

theorem vOnly_eq_nil_iff {a b : List (String × (Nat × List String))} :
    vOnly a b = [] ↔ ∀ v ∈ akeys a, v ∈ akeys b := by
  rw [vOnly]
  exact sortStr_filter_not_mem_eq_nil_iff

theorem mem_vCommon_iff {a b : List (String × (Nat × List String))} {v : String} :
    v ∈ vCommon a b ↔ v ∈ akeys a ∧ v ∈ akeys b := by
  rw [vCommon, mem_sortStr, List.mem_filter]
  simp

theorem changedOf_eq_nil_iff {a b : List (String × (Nat × List String))} :
    changedOf a b = [] ↔
      ∀ v av bv, alookup v a = some av → alookup v b = some bv → av = bv := by
  rw [changedOf, List.filterMap_eq_nil_iff]
  constructor
  · intro h v av bv ha hb
    have hv : v ∈ vCommon a b :=
      mem_vCommon_iff.mpr ⟨mem_akeys_of_alookup ha, mem_akeys_of_alookup hb⟩
    have hnone := h v hv
    simp only [ha, hb, Option.getD_some] at hnone
    by_contra hne
    rw [if_neg hne] at hnone
    exact Option.noConfusion hnone
  · intro h v hv
    obtain ⟨hva, hvb⟩ := mem_vCommon_iff.mp hv
    obtain ⟨av, ha⟩ := alookup_isSome_of_mem hva
    obtain ⟨bv, hb⟩ := alookup_isSome_of_mem hvb
    simp only [ha, hb, Option.getD_some]
    rw [if_pos (h v av bv ha hb)]

theorem blockHasDiff_eq_false_iff {a b : BlockState} :
    blockHasDiff a b = false ↔ noBlockDiff a b := by
  rw [blockHasDiff, noBlockDiff]
  simp only [Bool.or_eq_false_iff, decide_eq_false_iff_not, not_not]
  rw [vOnly_eq_nil_iff, vOnly_eq_nil_iff, changedOf_eq_nil_iff]
  tauto

theorem bOnly_eq_nil_iff {a b : List (Nat × BlockState)} :
    bOnly a b = [] ↔ ∀ x ∈ akeys a, x ∈ akeys b := by
  rw [bOnly]
  exact sortNat_filter_not_mem_eq_nil_iff

theorem mem_bCommon_iff {a b : List (Nat × BlockState)} {bid : Nat} :
    bid ∈ bCommon a b ↔ bid ∈ akeys a ∧ bid ∈ akeys b := by
  rw [bCommon, mem_sortNat, List.mem_filter]
  simp

theorem funcHasDiff_eq_false_iff {a b : List (Nat × BlockState)} :
    funcHasDiff a b = false ↔ noFuncDiff a b := by
  rw [funcHasDiff, noFuncDiff]
  simp only [Bool.or_eq_false_iff, decide_eq_false_iff_not, not_not, List.any_eq_false,
    Bool.not_eq_true]
  rw [bOnly_eq_nil_iff, bOnly_eq_nil_iff]
  constructor
  · rintro ⟨⟨h1, h2⟩, h3⟩
    refine ⟨h1, h2, fun bid x y hx hy => ?_⟩
    have hbid : bid ∈ bCommon a b :=
      mem_bCommon_iff.mpr ⟨mem_akeys_of_alookup hx, mem_akeys_of_alookup hy⟩
    have hfalse := h3 bid hbid
    simp only [hx, hy, Option.getD_some] at hfalse
    exact blockHasDiff_eq_false_iff.mp hfalse
  · rintro ⟨h1, h2, h3⟩
    refine ⟨⟨h1, h2⟩, fun bid hbid => ?_⟩
    obtain ⟨ha, hb⟩ := mem_bCommon_iff.mp hbid
    obtain ⟨x, hx⟩ := alookup_isSome_of_mem ha
    obtain ⟨y, hy⟩ := alookup_isSome_of_mem hb
    simp only [hx, hy, Option.getD_some]
    exact blockHasDiff_eq_false_iff.mpr (h3 bid x y hx hy)

theorem diffsFlag_eq_false_iff {A B : Dump} : diffsFlag A B = false ↔ reportEmpty A B := by
  rw [diffsFlag, reportEmpty]
  simp only [Bool.or_eq_false_iff, decide_eq_false_iff_not, not_not, List.any_eq_false,
    Bool.not_eq_true]
  rw [sortStr_filter_not_mem_eq_nil_iff, sortStr_filter_not_mem_eq_nil_iff]
  constructor
  · rintro ⟨⟨h1, h2⟩, h3⟩
    refine ⟨h1, h2, fun f sa sb hsa hsb => ?_⟩
    have hf : f ∈ sortStr ((akeys A).filter (fun n => decide (n ∈ akeys B))) := by
      rw [mem_sortStr, List.mem_filter]
      exact ⟨mem_akeys_of_alookup hsa, by simpa using mem_akeys_of_alookup hsb⟩
    have hfalse := h3 f hf
    simp only [hsa, hsb, Option.getD_some] at hfalse
    exact funcHasDiff_eq_false_iff.mp hfalse
  · rintro ⟨h1, h2, h3⟩
    refine ⟨⟨h1, h2⟩, fun f hf => ?_⟩
    rw [mem_sortStr, List.mem_filter] at hf
    obtain ⟨hfa, hfb⟩ := hf
    have hfb' : f ∈ akeys B := by simpa using hfb
    obtain ⟨sa, hsa⟩ := alookup_isSome_of_mem hfa
    obtain ⟨sb, hsb⟩ := alookup_isSome_of_mem hfb'
    simp only [hsa, hsb, Option.getD_some]
    exact funcHasDiff_eq_false_iff.mpr (h3 f sa sb hsa hsb)

/-- C7: for every pair of parsed dump models the comparison returns exit
status 0 exactly when the report is semantically empty — no function only
in either side and no per-function difference at any level (blocks,
variables, avoid sets) — and returns exit status 1 exactly otherwise. -/
theorem c7_exit_status (pA pB : String) (A B : Dump) (maxVar : Nat) :
    ((compareSections pA A pB B maxVar).2 = 0 ↔ reportEmpty A B) ∧
      ((compareSections pA A pB B maxVar).2 = 1 ↔ ¬ reportEmpty A B) := by
  have hs : (compareSections pA A pB B maxVar).2 = if diffsFlag A B then 1 else 0 := rfl
  rw [hs]
  cases hb : diffsFlag A B with
  | false => simp [diffsFlag_eq_false_iff.mp hb]
  | true =>
    have hne : ¬ reportEmpty A B := by
      intro hre
      rw [diffsFlag_eq_false_iff.mpr hre] at hb
      exact Bool.noConfusion hb
    simp [hne]

theorem fieldsAux_notsep {p : Char → Bool} :
    ∀ (t : List Char), (∀ c ∈ t, p c = false) →
      ∀ (x acc : List Char), fieldsAux p (t ++ x) acc = fieldsAux p x (t.reverse ++ acc) := by
  intro t
  induction t with
  | nil => intro _ x acc; simp
  | cons c cs ih =>
    intro h x acc
    have hc : p c = false := h c (by simp)
    rw [List.cons_append]
    simp only [fieldsAux, hc, Bool.false_eq_true, if_false]
    rw [ih (fun y hy => h y (by simp [hy])) x (c :: acc)]
    simp

theorem fieldsAux_sep_skip {p : Char → Bool} :
    ∀ (s : List Char), (∀ c ∈ s, p c = true) →
      ∀ x, fieldsAux p (s ++ x) [] = fieldsAux p x [] := by
  intro s
  induction s with
  | nil => intro _ x; rfl
  | cons c cs ih =>
    intro h x
    have hc : p c = true := h c (by simp)
    rw [List.cons_append]
    simp only [fieldsAux, hc, if_true, if_pos rfl]
    exact ih (fun y hy => h y (by simp [hy])) x

theorem fieldsAux_emit {p : Char → Bool} (acc : List Char) (hacc : acc ≠ [])
    (x : List Char) (hx : x = [] ∨ ∃ c cs, x = c :: cs ∧ p c = true) :
    fieldsAux p x acc = acc.reverse :: fieldsAux p x [] := by
  rcases hx with rfl | ⟨c, cs, rfl, hc⟩
  · simp [fieldsAux, hacc]
  · simp [fieldsAux, hc, hacc]

theorem fields_tok_append {p : Char → Bool} (t : List Char) (ht : t ≠ [])
    (hall : ∀ c ∈ t, p c = false) (x : List Char)
    (hx : x = [] ∨ ∃ c cs, x = c :: cs ∧ p c = true) :
    fields p (t ++ x) = t :: fields p x := by
  rw [fields, fieldsAux_notsep t hall x [], List.append_nil,
    fieldsAux_emit _ (by simpa using ht) x hx]
  simp [fields]

theorem fields_all_notsep {p : Char → Bool} (t : List Char) (ht : t ≠ [])
    (hall : ∀ c ∈ t, p c = false) : fields p t = [t] := by
  have h := fields_tok_append t ht hall [] (Or.inl rfl)
  simpa using h

theorem fields_interleave {p : Char → Bool} :
    ∀ (toks seps : List (List Char)),
      (∀ t ∈ toks, t ≠ [] ∧ ∀ c ∈ t, p c = false) →
      (∀ s ∈ seps, s ≠ [] ∧ ∀ c ∈ s, p c = true) →
      seps.length + 1 = toks.length →
      fields p (interleave toks seps) = toks
  | [], _, _, _, hlen => absurd hlen (Nat.succ_ne_zero _)
  | [t], seps, htoks, _, _ => by
    have h := htoks t (by simp)
    have e : interleave [t] seps = t := by cases seps <;> rfl
    rw [e]
    exact fields_all_notsep t h.1 h.2
  | t :: t2 :: ts, [], _, _, hlen => absurd hlen (by simp)
  | t :: t2 :: ts, s :: ss, htoks, hseps, hlen => by
    have ht := htoks t (by simp)
    have hs := hseps s (by simp)
    obtain ⟨c, s', rfl⟩ : ∃ c s', s = c :: s' := by
      cases s with
      | nil => exact absurd rfl hs.1
      | cons c s' => exact ⟨c, s', rfl⟩
    have e1 : interleave (t :: t2 :: ts) ((c :: s') :: ss) =
        t ++ (c :: (s' ++ interleave (t2 :: ts) ss)) := by
      show t ++ (c :: s') ++ interleave (t2 :: ts) ss = _
      rw [List.append_assoc]
      rfl
    rw [e1]
    rw [fields_tok_append t ht.1 ht.2 (c :: (s' ++ interleave (t2 :: ts) ss))
      (Or.inr ⟨c, s' ++ interleave (t2 :: ts) ss, rfl, hs.2 c (by simp)⟩)]
    have e2 : fields p (c :: (s' ++ interleave (t2 :: ts) ss)) =
        fields p (interleave (t2 :: ts) ss) :=
      fieldsAux_sep_skip (c :: s') hs.2 (interleave (t2 :: ts) ss)
    rw [e2]
    rw [fields_interleave (t2 :: ts) ss (fun x hx => htoks x (by simp [hx]))
      (fun x hx => hseps x (by simp [hx])) (by simpa using hlen)]

/-- C5: for any block body, permuting the order of tokens inside a
bracketed register list (whether separated by commas, whitespace, or a
mix) or permuting the order of tokens in the trailing avoid= clause yields
the same canonical register list and canonical avoid set, hence an
identical canonical BlockState, and therefore the block-level comparison
of the two resulting blocks reports no difference. -/
theorem c5_perm_insensitive
    (toks1 toks2 seps1 seps2 atoks1 atoks2 aseps1 aseps2 : List (List Char))
    (hperm : toks1.Perm toks2) (haperm : atoks1.Perm atoks2)
    (htoks1 : ∀ t ∈ toks1, t ≠ [] ∧ ∀ c ∈ t, isRegSep c = false)
    (hatoks1 : ∀ t ∈ atoks1, t ≠ [] ∧ ∀ c ∈ t, isSpc c = false)
    (hseps1 : ∀ s ∈ seps1, s ≠ [] ∧ ∀ c ∈ s, isRegSep c = true)
    (hseps2 : ∀ s ∈ seps2, s ≠ [] ∧ ∀ c ∈ s, isRegSep c = true)
    (haseps1 : ∀ s ∈ aseps1, s ≠ [] ∧ ∀ c ∈ s, isSpc c = true)
    (haseps2 : ∀ s ∈ aseps2, s ≠ [] ∧ ∀ c ∈ s, isSpc c = true)
    (hlen1 : seps1.length + 1 = toks1.length) (hlen2 : seps2.length + 1 = toks2.length)
    (halen1 : aseps1.length + 1 = atoks1.length)
    (halen2 : aseps2.length + 1 = atoks2.length) :
    splitRegs (interleave toks1 seps1) = splitRegs (interleave toks2 seps2) ∧
      canonAvoid (interleave atoks1 aseps1) = canonAvoid (interleave atoks2 aseps2) ∧
      ∀ (vname : String) (w : Nat),
        (⟨[(vname, (w, splitRegs (interleave toks1 seps1)))],
            canonAvoid (interleave atoks1 aseps1)⟩ : BlockState) =
          ⟨[(vname, (w, splitRegs (interleave toks2 seps2)))],
            canonAvoid (interleave atoks2 aseps2)⟩ ∧
        blockHasDiff
          ⟨[(vname, (w, splitRegs (interleave toks1 seps1)))],
            canonAvoid (interleave atoks1 aseps1)⟩
          ⟨[(vname, (w, splitRegs (interleave toks2 seps2)))],
            canonAvoid (interleave atoks2 aseps2)⟩ = false := by
  have htoks2 : ∀ t ∈ toks2, t ≠ [] ∧ ∀ c ∈ t, isRegSep c = false :=
    fun t ht => htoks1 t (hperm.mem_iff.mpr ht)
  have hatoks2 : ∀ t ∈ atoks2, t ≠ [] ∧ ∀ c ∈ t, isSpc c = false :=
    fun t ht => hatoks1 t (haperm.mem_iff.mpr ht)
  have h1 : fields isRegSep (interleave toks1 seps1) = toks1 :=
    fields_interleave toks1 seps1 htoks1 hseps1 hlen1
  have h2 : fields isRegSep (interleave toks2 seps2) = toks2 :=
    fields_interleave toks2 seps2 htoks2 hseps2 hlen2
  have ha1 : fields isSpc (interleave atoks1 aseps1) = atoks1 :=
    fields_interleave atoks1 aseps1 hatoks1 haseps1 halen1
  have ha2 : fields isSpc (interleave atoks2 aseps2) = atoks2 :=
    fields_interleave atoks2 aseps2 hatoks2 haseps2 halen2
  have hsr : splitRegs (interleave toks1 seps1) = splitRegs (interleave toks2 seps2) := by
    rw [splitRegs, splitRegs, fieldsS, fieldsS, h1, h2]
    exact sortStr_eq_of_perm (hperm.map _)
  have hca : canonAvoid (interleave atoks1 aseps1) = canonAvoid (interleave atoks2 aseps2) := by
    rw [canonAvoid, canonAvoid, fieldsS, fieldsS, ha1, ha2]
    exact sortStr_eq_of_perm ((haperm.map _).dedup)
  refine ⟨hsr, hca, fun vname w => ?_⟩
  rw [hsr, hca]
  exact ⟨rfl, blockHasDiff_self _⟩

/-- Witness for C5 at a concrete instance: the register list written
`R1,R0` versus `R0 R1` and the avoid clause `A B` versus `B  A`. -/
theorem c5_witness :
    splitRegs (interleave [['R', '1'], ['R', '0']] [[',']]) =
        splitRegs (interleave [['R', '0'], ['R', '1']] [[' ']]) ∧
      canonAvoid (interleave [['A'], ['B']] [[' ']]) =
        canonAvoid (interleave [['B'], ['A']] [[' ', ' ']]) ∧
      blockHasDiff
        ⟨[("v8", (4, splitRegs (interleave [['R', '1'], ['R', '0']] [[',']])))],
          canonAvoid (interleave [['A'], ['B']] [[' ']])⟩
        ⟨[("v8", (4, splitRegs (interleave [['R', '0'], ['R', '1']] [[' ']])))],
          canonAvoid (interleave [['B'], ['A']] [[' ', ' ']])⟩ = false := by
  have h := c5_perm_insensitive [['R', '1'], ['R', '0']] [['R', '0'], ['R', '1']]
    [[',']] [[' ']] [['A'], ['B']] [['B'], ['A']] [[' ']] [[' ', ' ']]
    (by decide) (by decide) (by decide) (by decide) (by decide) (by decide)
    (by decide) (by decide) (by decide) (by decide) (by decide) (by decide)
  exact ⟨h.1, h.2.1, (h.2.2 "v8" 4).2⟩

/-- Counterexample to C2: the decoder does not accept the empty-bracket
token `v8(4)[]` — VAR_RE's register group `[^\]]+` needs at least one
character — so a block body consisting of exactly this token decodes to an
empty variable map instead of recording `v8` with an empty register
list. -/
theorem c2_counterexample :
    varMatch "v8(4)[]".data = none ∧ (decodeBody "v8(4)[]".data).vars = [] := by
  decide

/-- C2 amended: for every variable token of the shape
`v<digits>(<digits>)[]` the decoder rejects the token and discards it (the
bracketed register group requires at least one character); an empty
canonical register list arises instead from a matching token with no
bracket suffix at all. -/
theorem c2_amended (ds ns : List Char) (hds : ds ≠ [])
    (hd : ∀ c ∈ ds, isDig c = true) (hns : ns ≠ []) (hn : ∀ c ∈ ns, isDig c = true) :
    varMatch ('v' :: (ds ++ '(' :: (ns ++ ')' :: ['[', ']']))) = none ∧
      varMatch ('v' :: (ds ++ '(' :: (ns ++ [')']))) =
        some (String.mk ('v' :: ds), natOfDigits ns, []) := by
  constructor
  · have h1 : (ds ++ '(' :: (ns ++ ')' :: ['[', ']'])).takeWhile isDig = ds :=
      takeWhile_append_stop (by decide) ds _ hd
    have h2 : (ds ++ '(' :: (ns ++ ')' :: ['[', ']'])).dropWhile isDig =
        '(' :: (ns ++ ')' :: ['[', ']']) :=
      dropWhile_append_stop (by decide) ds _ hd
    have h3 : (ns ++ ')' :: ['[', ']']).takeWhile isDig = ns :=
      takeWhile_append_stop (by decide) ns _ hn
    have h4 : (ns ++ ')' :: ['[', ']']).dropWhile isDig = ')' :: ['[', ']'] :=
      dropWhile_append_stop (by decide) ns _ hn
    simp only [varMatch, h1, h2, h3, h4, if_neg hds, if_neg hns]
    rfl
  · have h1 : (ds ++ '(' :: (ns ++ [')'])).takeWhile isDig = ds :=
      takeWhile_append_stop (by decide) ds _ hd
    have h2 : (ds ++ '(' :: (ns ++ [')'])).dropWhile isDig = '(' :: (ns ++ [')']) :=
      dropWhile_append_stop (by decide) ds _ hd
    have h3 : (ns ++ [')']).takeWhile isDig = ns :=
      takeWhile_append_stop (by decide) ns [] hn
    have h4 : (ns ++ [')']).dropWhile isDig = [')'] :=
      dropWhile_append_stop (by decide) ns [] hn
    simp only [varMatch, h1, h2, h3, h4, if_neg hds, if_neg hns]
    rfl

/-- Witness for C2 amended at the token `v8(4)`. -/
theorem c2_amended_witness :
    varMatch ('v' :: (['8'] ++ '(' :: (['4'] ++ ')' :: ['[', ']']))) = none ∧
      varMatch ('v' :: (['8'] ++ '(' :: (['4'] ++ [')']))) =
        some (String.mk ('v' :: ['8']), natOfDigits ['4'], []) :=
  c2_amended ['8'] ['4'] (by decide) (by decide) (by decide) (by decide)

set_option maxRecDepth 8192 in
/-- Counterexample to C3: with 51 only-in-one-side variable ids the
renderer emits the first 50 followed by a bare " ..." marker — there is no
"N more" count of the elided ids anywhere in the line. -/
theorem c3_counterexample :
    varsOnlyLine "L" ((List.range 51).map (fun i => "x" ++ toString i)) =
      "    vars only in L: x0, x1, x2, x3, x4, x5, x6, x7, x8, x9, x10, x11, x12, x13, x14, x15, x16, x17, x18, x19, x20, x21, x22, x23, x24, x25, x26, x27, x28, x29, x30, x31, x32, x33, x34, x35, x36, x37, x38, x39, x40, x41, x42, x43, x44, x45, x46, x47, x48, x49 ..." := by
  decide

/-- C3 amended: for every block side with more than 50 only-in-that-side
variable ids the renderer prints exactly the first 50 ids of the (sorted)
list, followed by a bare " ..." suffix that does not state the elided
count. -/
theorem c3_amended (label : String) (ids : List String) (h : 50 < ids.length) :
    varsOnlyLine label ids =
        "    vars only in " ++ label ++ ": " ++ joinSep ", " (ids.take 50) ++ " ..." ∧
      (ids.take 50).length = 50 := by
  constructor
  · rw [varsOnlyLine, if_pos h]
  · rw [List.length_take]
    omega

/-- Witness for C3 amended at a concrete list of 51 ids. -/
theorem c3_amended_witness :
    50 < ((List.range 51).map (fun i => "x" ++ toString i)).length ∧
      (varsOnlyLine "L" ((List.range 51).map (fun i => "x" ++ toString i)) =
          "    vars only in L: " ++
            joinSep ", " (((List.range 51).map (fun i => "x" ++ toString i)).take 50) ++
            " ..." ∧
        (((List.range 51).map (fun i => "x" ++ toString i)).take 50).length = 50) :=
  ⟨by decide, c3_amended "L" ((List.range 51).map (fun i => "x" ++ toString i)) (by decide)⟩

/-- C6: comparing a parsed dump model against an identical copy of itself
produces an empty report — the only printed line is "No differences
found.", so there are no only-in-either functions and no per-function
entries — and the comparison returns exit status 0. -/
theorem c6_self_compare_empty (pA pB : String) (D : Dump) (maxVar : Nat) :
    compareSections pA D pB D maxVar = (["No differences found."], 0) := by
  have h1 : (akeys D).filter (fun n => decide (¬ n ∈ akeys D)) = [] := filter_not_mem_self _
  have hany : (sortStr ((akeys D).filter (fun n => decide (n ∈ akeys D)))).any
      (fun func => funcHasDiff ((alookup func D).getD noSection).blocks
        ((alookup func D).getD noSection).blocks) = false := by
    rw [List.any_eq_false]
    intro f _
    simp [funcHasDiff_self]
  rw [compareSections]
  simp only [h1, sortStr_nil]
  rw [foldr_skip]
  · simp [hany]
  · intro x _ acc
    simp [funcHasDiff_self]

/-- C8: when the changed-variable list of a common block holds N entries
and N exceeds max_changed_vars_per_block, the rendered listing consists of
exactly max_changed_vars_per_block explicit changed-variable entries (the
first that many) followed by one elision line stating exactly
N - max_changed_vars_per_block elided entries — elided entries are never
dropped without a count. -/
theorem c8_elision_count (labelA labelB : String) (maxVar : Nat)
    (vch : List (String × (Nat × List String) × (Nat × List String)))
    (h : maxVar < vch.length) :
    changedVarLines labelA labelB maxVar vch =
        (vch.take maxVar).map (changedEntryLine labelA labelB) ++
          ["    ... " ++ toString (vch.length - maxVar) ++ " more changed vars"] ∧
      ((vch.take maxVar).map (changedEntryLine labelA labelB)).length = maxVar := by
  constructor
  · rw [changedVarLines, if_pos h]
  · rw [List.length_map, List.length_take]
    omega

/-- Witness for C8: two changed variables with a cap of one. -/
theorem c8_witness :
    1 < ([("v1", ((1 : Nat), ([] : List String)), ((2 : Nat), ([] : List String))),
        ("v2", ((1 : Nat), ([] : List String)), ((3 : Nat), ([] : List String)))]).length ∧
      (changedVarLines "L" "R" 1
          [("v1", ((1 : Nat), ([] : List String)), ((2 : Nat), ([] : List String))),
            ("v2", ((1 : Nat), ([] : List String)), ((3 : Nat), ([] : List String)))] =
          ([("v1", ((1 : Nat), ([] : List String)), ((2 : Nat), ([] : List String))),
              ("v2", ((1 : Nat), ([] : List String)), ((3 : Nat), ([] : List String)))].take 1).map
            (changedEntryLine "L" "R") ++
            ["    ... " ++ toString
              (([("v1", ((1 : Nat), ([] : List String)), ((2 : Nat), ([] : List String))),
                ("v2", ((1 : Nat), ([] : List String)), ((3 : Nat), ([] : List String)))]).length - 1) ++
              " more changed vars"] ∧
        (([("v1", ((1 : Nat), ([] : List String)), ((2 : Nat), ([] : List String))),
            ("v2", ((1 : Nat), ([] : List String)), ((3 : Nat), ([] : List String)))].take 1).map
          (changedEntryLine "L" "R")).length = 1) := by
  constructor
  · decide
  · exact c8_elision_count "L" "R" 1
      [("v1", ((1 : Nat), ([] : List String)), ((2 : Nat), ([] : List String))),
        ("v2", ((1 : Nat), ([] : List String)), ((3 : Nat), ([] : List String)))] (by decide)

theorem alookup_append_some {α β : Type} [DecidableEq α] {k : α} {v : β} :
    ∀ (xs ys : List (α × β)), alookup k xs = some v → alookup k (xs ++ ys) = some v := by
  intro xs ys h
  induction xs with
  | nil => exact Option.noConfusion h
  | cons x rest ih =>
    obtain ⟨k', v'⟩ := x
    rw [List.cons_append]
    by_cases hk : k' = k
    · rw [alookup, if_pos hk]
      rw [alookup, if_pos hk] at h
      exact h
    · rw [alookup, if_neg hk]
      rw [alookup, if_neg hk] at h
      exact ih h

theorem insBlock_lookup (g : String) (bid : Nat) (bs : BlockState) :
    ∀ (xs : Dump) (f : String) (sec : Section), alookup f xs = some sec →
      ∃ sec', alookup f (insBlock g bid bs xs) = some sec' ∧
        sec'.header_line = sec.header_line ∧ sec'.desc = sec.desc := by
  intro xs
  induction xs with
  | nil => intro f sec h; exact Option.noConfusion h
  | cons x rest ih =>
    obtain ⟨k', sec'⟩ := x
    intro f sec h
    by_cases hg : k' = g
    · subst hg
      rw [insBlock, if_pos rfl]
      by_cases hf : k' = f
      · rw [alookup, if_pos hf] at h
        obtain rfl : sec' = sec := Option.some.inj h
        refine ⟨{ sec' with blocks := ainsert bid bs sec'.blocks }, ?_, rfl, rfl⟩
        rw [alookup, if_pos hf]
      · rw [alookup, if_neg hf] at h
        exact ⟨sec, by rw [alookup, if_neg hf]; exact h, rfl, rfl⟩
    · rw [insBlock, if_neg hg]
      by_cases hf : k' = f
      · rw [alookup, if_pos hf] at h
        obtain rfl : sec' = sec := Option.some.inj h
        exact ⟨sec', by rw [alookup, if_pos hf], rfl, rfl⟩
      · rw [alookup, if_neg hf] at h
        obtain ⟨s2, h2, hh, hd⟩ := ih f sec h
        exact ⟨s2, by rw [alookup, if_neg hf]; exact h2, hh, hd⟩

theorem step_preserves_section (line : List Char) (st : ParseState) (f : String)
    (sec : Section) (h : alookup f st.sections = some sec) :
    ∃ sec', alookup f (step st line).sections = some sec' ∧
      sec'.header_line = sec.header_line ∧
      (∀ d, sec.desc = some d → sec'.desc = some d) := by
  cases hsec : secMatch line with
  | some p =>
    obtain ⟨desc, func⟩ := p
    cases hfunc : alookup func st.sections with
    | none =>
      have e : (step st line).sections = st.sections ++ [(func, ⟨desc, String.mk line, []⟩)] := by
        simp only [step, hsec, ensure, hfunc]
      rw [e]
      exact ⟨sec, alookup_append_some _ _ h, rfl, fun d hd => hd⟩
    | some sec2 =>
      cases hdesc : sec2.desc with
      | some d2 =>
        have e : (step st line).sections = st.sections := by
          simp only [step, hsec, ensure, hfunc, hdesc]
        rw [e]
        exact ⟨sec, h, rfl, fun d hd => hd⟩
      | none =>
        cases htr : descTruthy desc with
        | false =>
          have e : (step st line).sections = st.sections := by
            simp only [step, hsec, ensure, hfunc, hdesc, htr, Bool.false_eq_true, if_false]
          rw [e]
          exact ⟨sec, h, rfl, fun d hd => hd⟩
        | true =>
          have e : (step st line).sections =
              ainsert func { sec2 with desc := desc } st.sections := by
            simp only [step, hsec, ensure, hfunc, hdesc, htr, if_true]
          rw [e]
          by_cases hf : f = func
          · subst hf
            rw [h] at hfunc
            obtain rfl : sec2 = sec := (Option.some.inj hfunc).symm
            refine ⟨{ sec2 with desc := desc }, alookup_ainsert f _ _, rfl, ?_⟩
            intro d hd
            rw [hdesc] at hd
            exact Option.noConfusion hd
          · exact ⟨sec, by rw [alookup_ainsert_ne _ hf]; exact h, rfl, fun d hd => hd⟩
  | none =>
    cases hcur : st.curFunc with
    | none =>
      have e : step st line = st := by
        simp only [step, hsec, hcur]
      rw [e]
      exact ⟨sec, h, rfl, fun d hd => hd⟩
    | some g =>
      cases hpre : isPre beginLit line with
      | true =>
        have e : (step st line).sections = st.sections := by
          simp only [step, hsec, hcur, hpre, if_true]
        rw [e]
        exact ⟨sec, h, rfl, fun d hd => hd⟩
      | false =>
        cases hbm : blockMatch line with
        | none =>
          have e : step st line = st := by
            simp only [step, hsec, hcur, hpre, hbm, Bool.false_eq_true, if_false]
          rw [e]
          exact ⟨sec, h, rfl, fun d hd => hd⟩
        | some p =>
          obtain ⟨bid, body⟩ := p
          have e : (step st line).sections = insBlock g bid (decodeBody body) st.sections := by
            simp only [step, hsec, hcur, hpre, hbm, Bool.false_eq_true, if_false]
          rw [e]
          obtain ⟨sec', h', hh, hd⟩ := insBlock_lookup g bid (decodeBody body) st.sections f sec h
          exact ⟨sec', h', hh, fun d hdd => by rw [hd, hdd]⟩

set_option maxRecDepth 8192 in
/-- Counterexample to C1: in a file where `foo` first appears with no
parenthesized annotation and recurs with annotation `(X)`, the parser
stores description `X` for `foo` — the later header's annotation replaces
the first-seen (absent) description rather than the first-seen one being
kept regardless. -/
theorem c1_counterexample :
    (alookup "foo" (parseFile
        ["final: live values at end of each block: foo",
          "final (X): live values at end of each block: foo"])).map Section.desc =
      some (some "X") := by
  decide

/-- C1 amended: once a function's Section exists, later lines — including
recurrences of the same function name on new header lines — never change
its header line, and never change its description when one is present
(first-seen wins for the header always, and for the description whenever
the first occurrence carried an annotation); only when the stored
description is absent can a later header's non-empty annotation fill it
in, and only the block mapping otherwise accumulates. -/
theorem c1_amended (lines : List (List Char)) (st : ParseState) (f : String)
    (sec : Section) (h : alookup f st.sections = some sec) :
    ∃ sec', alookup f (runLines st lines).sections = some sec' ∧
      sec'.header_line = sec.header_line ∧
      (∀ d, sec.desc = some d → sec'.desc = some d) := by
  induction lines generalizing st sec with
  | nil => exact ⟨sec, h, rfl, fun d hd => hd⟩
  | cons l rest ih =>
    obtain ⟨sec1, h1, hh1, hd1⟩ := step_preserves_section l st f sec h
    obtain ⟨sec2, h2, hh2, hd2⟩ := ih (step st l) sec1 h1
    exact ⟨sec2, h2, hh2.trans hh1, fun d hd => hd2 d (hd1 d hd)⟩

theorem runLines_cons (st : ParseState) (a : List Char) (ls : List (List Char)) :
    runLines st (a :: ls) = runLines (step st a) ls := rfl

theorem runLines_append (st : ParseState) (xs ys : List (List Char)) :
    runLines st (xs ++ ys) = runLines (runLines st xs) ys := by
  rw [runLines, runLines, runLines, List.foldl_append]

theorem parseFile_eq_runLines (lines : List String) :
    parseFile lines = (runLines ⟨[], none⟩ (lines.map String.data)).sections := by
  rw [parseFile, runLines, List.foldl_map]

theorem ensure_single (f : String) (sec : Section) (desc : Option String) (hd : String) :
    ∃ d', ensure [(f, sec)] f desc hd = [(f, ⟨d', sec.header_line, sec.blocks⟩)] := by
  obtain ⟨dsc, hdl, blk⟩ := sec
  cases dsc with
  | some d2 =>
    refine ⟨some d2, ?_⟩
    simp only [ensure, alookup, if_pos rfl, if_true]
  | none =>
    cases htr : descTruthy desc with
    | false =>
      refine ⟨none, ?_⟩
      simp only [ensure, alookup, if_pos rfl, if_true, htr, Bool.false_eq_true, if_false]
    | true =>
      refine ⟨desc, ?_⟩
      simp only [ensure, alookup, if_pos rfl, htr, if_true, ainsert]

theorem runLines_block_section (f : String) (d : Option String) (hd : String) :
    ∀ (ls : List (List Char)) (bs : List (Nat × BlockState)),
      (∀ l ∈ ls, secMatch l = none ∧ isPre beginLit l = false ∧ (blockMatch l).isSome = true) →
      runLines ⟨[(f, ⟨d, hd, bs⟩)], some f⟩ ls =
        ⟨[(f, ⟨d, hd, ls.foldl blockFold bs⟩)], some f⟩ := by
  intro ls
  induction ls with
  | nil => intro bs _; rfl
  | cons l rest ih =>
    intro bs hl
    have h := hl l (by simp)
    cases hbm : blockMatch l with
    | none =>
      have h22 := h.2.2
      rw [hbm] at h22
      exact absurd h22 (by simp)
    | some p =>
      obtain ⟨bid, body⟩ := p
      have estep : step ⟨[(f, ⟨d, hd, bs⟩)], some f⟩ l =
          ⟨[(f, ⟨d, hd, ainsert bid (decodeBody body) bs⟩)], some f⟩ := by
        simp only [step, h.1, h.2.1, hbm, Bool.false_eq_true, if_false, insBlock,
          if_pos rfl, if_true]
      rw [runLines_cons, estep, ih _ (fun x hx => hl x (by simp [hx]))]
      have ebf : blockFold bs l = ainsert bid (decodeBody body) bs := by
        simp only [blockFold, hbm]
      rw [List.foldl_cons, ebf]

theorem foldl_blockFold_append :
    ∀ (ls : List (List Char)) (bs ys : List (Nat × BlockState)),
      (∀ b ∈ bidsOf ls, ¬ b ∈ akeys bs) →
      ls.foldl blockFold (bs ++ ys) = bs ++ ls.foldl blockFold ys := by
  intro ls
  induction ls with
  | nil => intro bs ys _; rfl
  | cons l rest ih =>
    intro bs ys hdisj
    rw [List.foldl_cons, List.foldl_cons]
    cases hbm : blockMatch l with
    | none =>
      have e : ∀ m : List (Nat × BlockState), blockFold m l = m := fun m => by
        simp only [blockFold, hbm]
      rw [e, e]
      refine ih bs ys (fun b hb => hdisj b ?_)
      simp only [bidsOf, List.filterMap_cons, hbm, Option.map_none] at hb ⊢
      exact hb
    | some p =>
      obtain ⟨bid, body⟩ := p
      have e : ∀ m : List (Nat × BlockState), blockFold m l = ainsert bid (decodeBody body) m :=
        fun m => by simp only [blockFold, hbm]
      rw [e, e]
      have hbid : ¬ bid ∈ akeys bs := hdisj bid (by
        simp only [bidsOf, List.filterMap_cons, hbm, Option.map_some]
        exact List.mem_cons_self _ _)
      rw [ainsert_append_left bid (decodeBody body) bs ys hbid]
      refine ih bs (ainsert bid (decodeBody body) ys) (fun b hb => hdisj b ?_)
      simp only [bidsOf, List.filterMap_cons, hbm, Option.map_some] at hb ⊢
      exact List.mem_cons_of_mem _ hb

/-- C9: a file made of a section header naming `f`, a run of block-summary
lines, a second header naming `f`, and a second run of block-summary
lines, with the block ids of the second run disjoint from those of the
first, parses to a model with a single Section for `f` whose block mapping
is the union of the block maps contributed by the two runs (the first
run's blocks followed by the second run's). -/
theorem c9_section_accumulation (h1 h2 : String) (l1 l2 : List String)
    (f : String) (d1 d2 : Option String)
    (hh1 : secMatch h1.data = some (d1, f)) (hh2 : secMatch h2.data = some (d2, f))
    (hl1 : ∀ l ∈ l1, secMatch l.data = none ∧ isPre beginLit l.data = false ∧
      (blockMatch l.data).isSome = true)
    (hl2 : ∀ l ∈ l2, secMatch l.data = none ∧ isPre beginLit l.data = false ∧
      (blockMatch l.data).isSome = true)
    (hdisj : ∀ b ∈ bidsOf (l2.map String.data), ¬ b ∈ akeys (blocksOf (l1.map String.data))) :
    ∃ desc, parseFile ((h1 :: l1) ++ h2 :: l2) =
      [(f, ⟨desc, h1, blocksOf (l1.map String.data) ++ blocksOf (l2.map String.data)⟩)] := by
  obtain ⟨d', hd'⟩ := ensure_single f
    ⟨d1, String.mk h1.data, blocksOf (l1.map String.data)⟩ d2 (String.mk h2.data)
  refine ⟨d', ?_⟩
  rw [parseFile_eq_runLines, List.map_append, List.map_cons, List.map_cons]
  rw [runLines_append, runLines_cons, runLines_cons]
  have e1 : step ⟨[], none⟩ h1.data = ⟨[(f, ⟨d1, String.mk h1.data, []⟩)], some f⟩ := by
    simp only [step, hh1, ensure, alookup, List.nil_append]
  rw [e1]
  rw [runLines_block_section f d1 (String.mk h1.data) (l1.map String.data) []
    (fun l' hl' => by
      obtain ⟨l, hl, rfl⟩ := List.mem_map.mp hl'
      exact hl1 l hl)]
  rw [show (l1.map String.data).foldl blockFold [] = blocksOf (l1.map String.data) from rfl]
  have e2 : step ⟨[(f, ⟨d1, String.mk h1.data, blocksOf (l1.map String.data)⟩)], some f⟩
      h2.data =
      ⟨[(f, ⟨d', String.mk h1.data, blocksOf (l1.map String.data)⟩)], some f⟩ := by
    simp only [step, hh2]
    rw [hd']
  rw [e2]
  rw [runLines_block_section f d' (String.mk h1.data) (l2.map String.data)
    (blocksOf (l1.map String.data))
    (fun l' hl' => by
      obtain ⟨l, hl, rfl⟩ := List.mem_map.mp hl'
      exact hl2 l hl)]
  have e3 : (l2.map String.data).foldl blockFold (blocksOf (l1.map String.data)) =
      blocksOf (l1.map String.data) ++ blocksOf (l2.map String.data) := by
    have h4 := foldl_blockFold_append (l2.map String.data)
      (blocksOf (l1.map String.data)) [] hdisj
    rw [List.append_nil] at h4
    exact h4
  rw [e3]

/-- Witness for C9: the function `foo` re-opened once, with block 1 in the
first run and block 2 in the second. -/
theorem c9_witness :
    (secMatch "final: live values at end of each block: foo".data =
        some (none, "foo")) ∧
      ∃ desc, parseFile (("final: live values at end of each block: foo" ::
          ["b1: v8(4)"]) ++ "final: live values at end of each block: foo" ::
          ["b2: v9(5)"]) =
        [("foo", ⟨desc, "final: live values at end of each block: foo",
          blocksOf (["b1: v8(4)"].map String.data) ++
            blocksOf (["b2: v9(5)"].map String.data)⟩)] :=
  ⟨by decide,
    c9_section_accumulation "final: live values at end of each block: foo"
      "final: live values at end of each block: foo" ["b1: v8(4)"] ["b2: v9(5)"]
      "foo" none none (by decide) (by decide)
      (by intro l hl; fin_cases hl; exact ⟨by decide, by decide, by decide⟩)
      (by intro l hl; fin_cases hl; exact ⟨by decide, by decide, by decide⟩)
      (by decide)⟩

theorem strAppend_assoc (a b c : String) : a ++ b ++ c = a ++ (b ++ c) := by
  cases a with
  | mk la =>
    cases b with
    | mk lb =>
      cases c with
      | mk lc => exact congrArg String.mk (List.append_assoc la lb lc)

set_option maxRecDepth 2048 in
/-- C10: while a current function is set, a line of the block-summary
shape `b<digits>:` inserts a BlockState for its block id even when the
body decodes to nothing: the parsed model records the block with an empty
variable map and empty avoid set, the same file without that line records
no block at all, and comparing the two models reports a block-level
"blocks only in" difference with exit status 1. -/
theorem c10_empty_block_recorded (h bl : String) (f : String) (d : Option String)
    (hh : secMatch h.data = some (d, f)) (bid : Nat) (body : List Char)
    (hsec : secMatch bl.data = none) (hpre : isPre beginLit bl.data = false)
    (hbm : blockMatch bl.data = some (bid, body))
    (hempty : decodeBody body = ⟨[], []⟩) (pA pB : String) (maxVar : Nat) :
    parseFile [h, bl] = [(f, ⟨d, h, [(bid, ⟨[], []⟩)]⟩)] ∧
      parseFile [h] = [(f, ⟨d, h, []⟩)] ∧
      (compareSections pA (parseFile [h, bl]) pB (parseFile [h]) maxVar).2 = 1 ∧
      ("  blocks only in " ++ fileLabel pA ++ ": b" ++ toString bid) ∈
        (compareSections pA (parseFile [h, bl]) pB (parseFile [h]) maxVar).1 := by
  have e1 : step ⟨[], none⟩ h.data = ⟨[(f, ⟨d, String.mk h.data, []⟩)], some f⟩ := by
    simp only [step, hh, ensure, alookup, List.nil_append]
  have e2 : step ⟨[(f, ⟨d, String.mk h.data, []⟩)], some f⟩ bl.data =
      ⟨[(f, ⟨d, String.mk h.data, [(bid, ⟨[], []⟩)]⟩)], some f⟩ := by
    simp only [step, hsec, hpre, Bool.false_eq_true, if_false, hbm, hempty, insBlock,
      if_pos rfl, if_true, ainsert]
  have hp2 : parseFile [h, bl] = [(f, ⟨d, h, [(bid, ⟨[], []⟩)]⟩)] := by
    rw [parseFile_eq_runLines]
    rw [show ([h, bl].map String.data) = [h.data, bl.data] from rfl]
    rw [runLines_cons, e1, runLines_cons, e2]
    rfl
  have hp1 : parseFile [h] = [(f, ⟨d, h, []⟩)] := by
    rw [parseFile_eq_runLines]
    rw [show ([h].map String.data) = [h.data] from rfl]
    rw [runLines_cons, e1]
    rfl
  have hb : bOnly [(bid, (⟨[], []⟩ : BlockState))] ([] : List (Nat × BlockState)) = [bid] := by
    simp [bOnly, akeys, sortNat]
  have hfd : funcHasDiff [(bid, (⟨[], []⟩ : BlockState))] ([] : List (Nat × BlockState)) =
      true := by
    simp [funcHasDiff, hb]
  have hfdl : funcDiffLines (fileLabel pA) (fileLabel pB) maxVar
      [(bid, (⟨[], []⟩ : BlockState))] [] =
      ["  blocks only in " ++ fileLabel pA ++ ": b" ++ toString bid] := by
    have hb2 : bOnly ([] : List (Nat × BlockState)) [(bid, (⟨[], []⟩ : BlockState))] = [] := rfl
    have hb3 : bCommon [(bid, (⟨[], []⟩ : BlockState))] [] = [] := by
      simp [bCommon, akeys, sortNat]
    rw [funcDiffLines, hb, hb2, hb3]
    rw [if_neg (by simp : ¬ ([bid] : List Nat) = []), if_pos rfl]
    simp only [List.map_cons, List.map_nil, List.flatten_nil, List.append_nil]
    rw [show joinSep ", " ["b" ++ toString bid] = "b" ++ toString bid from rfl]
    rw [show ("  blocks only in " ++ fileLabel pA ++ ": " ++ ("b" ++ toString bid)) =
      (("  blocks only in " ++ fileLabel pA ++ ": ") ++ "b") ++ toString bid from
      (strAppend_assoc _ "b" (toString bid)).symm]
    rw [strAppend_assoc ("  blocks only in " ++ fileLabel pA) ": " "b"]
    rfl
  have honlyA : sortStr ((akeys [(f, (⟨d, h, [(bid, ⟨[], []⟩)]⟩ : Section))]).filter
      (fun n => decide (¬ n ∈ akeys [(f, (⟨d, h, []⟩ : Section))]))) = [] := by
    rw [sortStr_eq_nil_iff]
    simp [akeys]
  have honlyB : sortStr ((akeys [(f, (⟨d, h, []⟩ : Section))]).filter
      (fun n => decide (¬ n ∈ akeys [(f, (⟨d, h, [(bid, ⟨[], []⟩)]⟩ : Section))]))) = [] := by
    rw [sortStr_eq_nil_iff]
    simp [akeys]
  have hcommon : sortStr ((akeys [(f, (⟨d, h, [(bid, ⟨[], []⟩)]⟩ : Section))]).filter
      (fun n => decide (n ∈ akeys [(f, (⟨d, h, []⟩ : Section))]))) = [f] := by
    have e : (akeys [(f, (⟨d, h, [(bid, ⟨[], []⟩)]⟩ : Section))]).filter
        (fun n => decide (n ∈ akeys [(f, (⟨d, h, []⟩ : Section))])) = [f] := by
      simp [akeys]
    rw [e]
    simp [sortStr]
  have hcmp : compareSections pA [(f, (⟨d, h, [(bid, ⟨[], []⟩)]⟩ : Section))] pB
      [(f, (⟨d, h, []⟩ : Section))] maxVar =
      (["=== " ++ f ++ " (" ++ comparisonHeader pA d pB d ++ ") ===",
        "  blocks only in " ++ fileLabel pA ++ ": b" ++ toString bid, ""], 1) := by
    rw [compareSections]
    simp only [honlyA, honlyB, hcommon, List.foldr_cons, List.foldr_nil, alookup,
      if_pos rfl, Option.getD_some, hfd, if_true, hfdl, List.any_cons, List.any_nil,
      Bool.or_false, List.nil_append, List.append_nil, List.cons_append, ne_eq,
      not_true_eq_false, Bool.false_or, if_false, not_false_eq_true, Bool.or_true]
  refine ⟨hp2, hp1, ?_, ?_⟩
  · rw [hp1, hp2, hcmp]
  · rw [hp1, hp2, hcmp]
    simp

set_option maxRecDepth 8192 in
/-- Witness for C10 at the header for `foo` and the bare block line
`b3:`, whose body decodes to nothing. -/
theorem c10_witness :
    parseFile ["final: live values at end of each block: foo", "b3:"] =
        [("foo", ⟨none, "final: live values at end of each block: foo",
          [(3, ⟨[], []⟩)]⟩)] ∧
      parseFile ["final: live values at end of each block: foo"] =
        [("foo", ⟨none, "final: live values at end of each block: foo", []⟩)] ∧
      (compareSections "debug_left.txt"
          (parseFile ["final: live values at end of each block: foo", "b3:"])
          "debug_right.txt"
          (parseFile ["final: live values at end of each block: foo"]) 25).2 = 1 ∧
      ("  blocks only in " ++ fileLabel "debug_left.txt" ++ ": b" ++ toString 3) ∈
        (compareSections "debug_left.txt"
          (parseFile ["final: live values at end of each block: foo", "b3:"])
          "debug_right.txt"
          (parseFile ["final: live values at end of each block: foo"]) 25).1 :=
  c10_empty_block_recorded "final: live values at end of each block: foo" "b3:" "foo" none
    (by decide) 3 [] (by decide) (by decide) (by decide) (by decide)
    "debug_left.txt" "debug_right.txt" 25

/-- Witness for C1 amended: a section with annotation `A` survives a
recurring header line carrying annotation `X`. -/
theorem c1_amended_witness :
    alookup "foo" (ParseState.mk [("foo", ⟨some "A", "hdr", []⟩)] none).sections =
        some ⟨some "A", "hdr", []⟩ ∧
      ∃ sec', alookup "foo" (runLines (ParseState.mk [("foo", ⟨some "A", "hdr", []⟩)] none)
          ["final (X): live values at end of each block: foo".data]).sections = some sec' ∧
        sec'.header_line = "hdr" ∧
        (∀ d, (some "A" : Option String) = some d → sec'.desc = some d) :=
  ⟨by decide,
    c1_amended ["final (X): live values at end of each block: foo".data]
      (ParseState.mk [("foo", ⟨some "A", "hdr", []⟩)] none) "foo"
      ⟨some "A", "hdr", []⟩ (by decide)⟩

end CmpDump
